import Mathlib

/-!
A verification development for the vault tree-viewer repository.

The Python sources are shallowly embedded as executable Lean definitions:

* `Row` models one record (one row of the notes DataFrame).  All cell values
  are strings; a missing/empty parent is modelled as a string whose trimmed
  form is empty, exactly as the Python code tests it
  (`if parent and pd.notna(parent) and str(parent).strip()`).
* Python dicts are modelled as association lists together with insert
  functions that reproduce dict assignment (overwrite in place, otherwise
  append), and `List.lookup` models `dict.get`.
* Python sets that are only used for membership tests are modelled as lists.
* `sorted(..., key=str.lower)` is modelled with a stable insertion sort
  (`sortBy`) on the key `str.lower`; Python's sort is stable and a stable
  sort's output is determined by the comparator alone.
-/

/-- One record of the notes table: `name`, `parent`, and the remaining
columns as an association list from column name to string value.
(Translation of one row of the pandas DataFrame; NaN cells are not modelled,
every modelled cell holds a string.) -/
structure Row where
  name : String
  parent : String
  attrs : List (String × String)
deriving DecidableEq, Repr

/-- children map: parent name to list of child names (a Python dict). -/
abbrev CMap := List (String × List String)

/-- parents map: child name to parent name (a Python dict). -/
abbrev PMap := List (String × String)

/-! String primitives.  The embedding works on `String.data` (the
character list) because the claims are settled by evaluation on concrete
inputs; the byte-position-based functions of the core library are
replaced by character-level equivalents.  Unicode-specific behaviour of
Python (`str.lower`/`str.strip` beyond ASCII) is not modelled. -/

/-- Python's whitespace class (`str.strip()` and the regex `\s`, ASCII). -/
def isWS (c : Char) : Bool :=
  c = ' ' || c = '\t' || c = '\n' || c = '\r' || c = '\x0b' || c = '\x0c'

/-- Python `str.strip()` on a character list. -/
def stripWS (l : List Char) : List Char :=
  ((l.dropWhile isWS).reverse.dropWhile isWS).reverse

/-- Python `str(x).strip()`. -/
def pyStrip (s : String) : String :=
  String.mk (stripWS s.data)

/-- Lexicographic comparison of character lists by code point
(Python string `<=`). -/
def lexLe : List Char → List Char → Bool
  | [], _ => true
  | _ :: _, [] => false
  | a :: as, b :: bs =>
    if a.toNat = b.toNat then lexLe as bs else decide (a.toNat < b.toNat)

/-- The comparison used by every `sorted(..., key=str.lower)` call:
`a.lower() <= b.lower()`. -/
def leLower (a b : String) : Bool :=
  lexLe (a.data.map Char.toLower) (b.data.map Char.toLower)

/-- Stable insertion of `a` into `l`: `a` goes in front of the first
element it compares `le` to. -/
def insertBy (le : String → String → Bool) (a : String) :
    List String → List String
  | [] => [a]
  | b :: bs => if le a b then a :: b :: bs else b :: insertBy le a bs

/-- Stable sort.  Python's `sorted`/`list.sort` are stable, and a stable
sort's output is uniquely determined by the comparator, so this insertion
sort models them exactly. -/
def sortBy (le : String → String → Bool) : List String → List String
  | [] => []
  | a :: rest => insertBy le a (sortBy le rest)

/-- `children_map.get(name, [])`. -/
def childrenOf (cm : CMap) (n : String) : List String :=
  (cm.lookup n).getD []

/-- Dict assignment `children_map[parent].append(name)` preceded by
`children_map[parent] = []` when the key is new. -/
def addChild (m : CMap) (p : String) (n : String) : CMap :=
  if m.any (fun kv => kv.1 == p) then
    m.map (fun kv => if kv.1 == p then (kv.1, kv.2 ++ [n]) else kv)
  else
    m ++ [(p, [n])]

/-- Translation of `build_children_map` (tree_viewer_logic.py, lines 11-37):
group names by their (trimmed, non-empty) parent in row order, then sort
every group with `key=str.lower`. -/
def build_children_map (rows : List Row) : CMap :=
  (rows.foldl
      (fun m r =>
        if pyStrip r.parent ≠ "" then addChild m (pyStrip r.parent) r.name else m)
      []).map
    (fun kv => (kv.1, sortBy leLower kv.2))

/-- Dict assignment `parents_map[name] = parent`. -/
def pmInsert (m : PMap) (k v : String) : PMap :=
  if m.any (fun kv => kv.1 == k) then
    m.map (fun kv => if kv.1 == k then (k, v) else kv)
  else
    m ++ [(k, v)]

/-- Translation of `build_parents_map` (tree_viewer_logic.py, lines 40-59):
for each row with a non-empty trimmed parent, map name to that parent. -/
def build_parents_map (rows : List Row) : PMap :=
  rows.foldl
    (fun m r =>
      if pyStrip r.parent ≠ "" then pmInsert m r.name (pyStrip r.parent) else m)
    []

/-- Translation of `find_roots` (tree_viewer_logic.py, lines 62-83):
a row is a root when its trimmed parent is empty or does not occur among
the record names; the root names are returned sorted with `key=str.lower`. -/
def find_roots (rows : List Row) : List String :=
  let note_names := rows.map Row.name
  sortBy leLower
    ((rows.filter
        (fun r =>
          decide (pyStrip r.parent = "") ||
            !(note_names.contains (pyStrip r.parent)))).map
      Row.name)

/-- Translation of `get_all_note_names` (tree_viewer_logic.py, lines 86-96). -/
def get_all_note_names (rows : List Row) : List String :=
  sortBy leLower (rows.map Row.name)

/-- The nested display structure produced by the tree builders: a `name`
and an optional `children` entry (`none` models the absence of the
`"children"` key in the Python dict; `some []` models a present but empty
list, which the Python code can produce when every raw child is filtered
out by the valid-name check). -/
inductive TreeNode where
  | node (name : String) (children : Option (List TreeNode))
deriving Repr

/-- The `name` entry of a display node. -/
def TreeNode.rootName : TreeNode → String
  | .node n _ => n

/-- Translation of `build_tree_data` (tree_viewer_logic.py, lines 99-141).
`visited` is the per-path visited set (the Python code copies it before
adding the current node, so every child receives the same extended set);
`depth` is `max_depth`, decremented on each recursive call. -/
def build_tree_data (cm : CMap) (note_names : List String) :
    String → List String → Nat → TreeNode
  | root_name, _, 0 => .node root_name none
  | root_name, visited, depth + 1 =>
    if visited.contains root_name then
      .node root_name none
    else
      match childrenOf cm root_name with
      | [] => .node root_name none
      | c :: cs =>
          .node root_name
            (some (((c :: cs).filter (fun child => note_names.contains child)).map
              (fun child =>
                build_tree_data cm note_names child (root_name :: visited) depth)))

/-- Translation of `build_inverted_tree_data` (tree_viewer_logic.py,
lines 144-183): the single optional child of a node is its parent from the
parents map, included only when non-empty and present in `note_names`. -/
def build_inverted_tree_data (pm : PMap) (note_names : List String) :
    String → List String → Nat → TreeNode
  | leaf_name, _, 0 => .node leaf_name none
  | leaf_name, visited, depth + 1 =>
    if visited.contains leaf_name then
      .node leaf_name none
    else
      match pm.lookup leaf_name with
      | none => .node leaf_name none
      | some parent =>
          if parent ≠ "" && note_names.contains parent then
            .node leaf_name
              (some [build_inverted_tree_data pm note_names parent
                (leaf_name :: visited) depth])
          else
            .node leaf_name none

/-! ### Termination measure for the visited-set recursions

Python's visited-set traversals terminate because the visited set only
grows inside the finite key set of the dictionary being traversed; the
measure below counts the keys not yet visited. -/

/-- Number of entries of `ks` that are not in `visited`. -/
def unvisitedCount (ks visited : List String) : Nat :=
  ks.countP (fun k => decide (k ∉ visited))

theorem contains_true_iff {l : List String} {a : String} :
    l.contains a = true ↔ a ∈ l := by
  simp [List.contains, List.elem_eq_mem]

theorem unvisitedCount_le_append (ks xs visited : List String) :
    unvisitedCount ks (xs ++ visited) ≤ unvisitedCount ks visited := by
  apply List.countP_mono_left
  intro k _ h
  simp only [decide_eq_true_eq, List.mem_append] at h ⊢
  exact fun hk => h (Or.inr hk)

theorem unvisitedCount_le_cons (ks visited : List String) (k : String) :
    unvisitedCount ks (k :: visited) ≤ unvisitedCount ks visited := by
  have h := unvisitedCount_le_append ks [k] visited
  simpa using h

theorem unvisitedCount_lt_cons (visited : List String) (k : String)
    (hnv : k ∉ visited) :
    ∀ ks : List String, k ∈ ks →
      unvisitedCount ks (k :: visited) < unvisitedCount ks visited := by
  intro ks
  induction ks with
  | nil => intro hk; cases hk
  | cons a ks ih =>
    intro hk
    have hstep : ∀ vis : List String, unvisitedCount (a :: ks) vis =
        unvisitedCount ks vis + (if a ∈ vis then 0 else 1) := by
      intro vis
      unfold unvisitedCount
      rw [List.countP_cons]
      by_cases h : a ∈ vis <;> simp [h]
    rw [hstep, hstep]
    by_cases hak : a = k
    · subst hak
      rw [if_neg hnv, if_pos (List.mem_cons_self a visited)]
      have htail := unvisitedCount_le_cons ks visited a
      omega
    · rcases List.mem_cons.mp hk with h | hk'
      · exact absurd h.symm hak
      · have htail := ih hk'
        by_cases hav : a ∈ visited
        · rw [if_pos hav, if_pos (List.mem_cons_of_mem _ hav)]
          omega
        · rw [if_neg hav, if_neg (by simp [List.mem_cons, hak, hav])]
          omega

theorem mem_keys_of_lookup_eq_some {α : Type} {m : List (String × α)}
    {k : String} {v : α} (h : m.lookup k = some v) : k ∈ m.map Prod.fst := by
  have hs : (m.lookup k).isSome := by rw [h]; rfl
  rcases List.lookup_isSome_iff.mp hs with ⟨p, hp, hbeq⟩
  exact List.mem_map.mpr ⟨p, hp, (beq_iff_eq.mp hbeq).symm⟩

theorem lex_of_le_of_lt {a₁ a₂ b₁ b₂ : Nat} (h₁ : a₁ ≤ a₂) (h₂ : b₁ < b₂) :
    Prod.Lex (· < ·) (· < ·) (a₁, b₁) (a₂, b₂) := by
  rcases Nat.lt_or_ge a₁ a₂ with h | h
  · exact Prod.Lex.left _ _ h
  · have he : a₁ = a₂ := Nat.le_antisymm h₁ h
    subst he
    exact Prod.Lex.right _ h₂

/-! ### Analysis utilities (tree_viewer_analysis.py) -/

mutual
/-- Translation of `count_descendants` (tree_viewer_analysis.py, lines
13-41).  The Python function mutates one visited set shared across the
whole call tree; the pair returned here is (the Python return value, the
list of names this call added to the shared visited set), and callers
thread the additions onward. -/
def count_descendants (cm : CMap) : String → List String → Nat × List String
  | node_name, visited =>
    if hv : visited.contains node_name then (0, [])
    else
      match hlk : cm.lookup node_name with
      | none => (0, [node_name])
      | some children =>
        let r := cdChildren cm children (node_name :: visited)
        (r.1, node_name :: r.2)
termination_by node_name visited => (unvisitedCount (cm.map Prod.fst) visited, 0)
decreasing_by
  simp_wf
  apply Prod.Lex.left
  exact unvisitedCount_lt_cons visited node_name
    (fun hmem => hv (contains_true_iff.mpr hmem)) _
    (mem_keys_of_lookup_eq_some hlk)

/-- The `for child in children_map.get(node_name, [])` loop of
`count_descendants`: `count += 1 + count_descendants(child, ...)` for each
child, threading the shared visited set left to right. -/
def cdChildren (cm : CMap) : List String → List String → Nat × List String
  | [], _ => (0, [])
  | child :: rest, visited =>
    let r1 := count_descendants cm child visited
    let r2 := cdChildren cm rest (r1.2 ++ visited)
    (r1.1 + 1 + r2.1, r1.2 ++ r2.2)
termination_by l visited => (unvisitedCount (cm.map Prod.fst) visited, l.length + 1)
decreasing_by
  · simp_wf
    exact lex_of_le_of_lt (Nat.le_refl _) (by omega)
  · simp_wf
    exact lex_of_le_of_lt (unvisitedCount_le_append _ _ _) (by omega)
end

/-- Aggregate tree statistics, translation of the result dictionary of
`compute_tree_stats` (tree_viewer_analysis.py, lines 103-135). -/
structure TreeStats where
  total_notes : Nat
  root_count : Nat
  leaf_count : Nat
  orphan_count : Nat
  roots : List String
  orphans : List String
deriving DecidableEq, Repr

/-- Translation of `compute_tree_stats` (tree_viewer_analysis.py, lines
103-135).  Python iterates over `set(df['name'].tolist())`, whose order is
unspecified; the set is modelled as the deduplicated name list, which has
the same membership and cardinality. -/
def compute_tree_stats (rows : List Row) : TreeStats :=
  let children_map := build_children_map rows
  let parents_map := build_parents_map rows
  let note_names := (rows.map Row.name).dedup
  let roots := note_names.filter
    (fun n => !(parents_map.map Prod.fst).contains n)
  let leaves := note_names.filter
    (fun n => !(children_map.map Prod.fst).contains n)
  let orphans := note_names.filter
    (fun n => !(parents_map.map Prod.fst).contains n &&
      !(children_map.map Prod.fst).contains n)
  { total_notes := note_names.length
    root_count := roots.length
    leaf_count := leaves.length
    orphan_count := orphans.length
    roots := roots
    orphans := orphans }

/-! ### Filter engine (tree_viewer_logic.py) -/

/-- The value of row `r` in column `c` (`df[column]` at this row): `name`
and `parent` are dedicated fields, every other column is looked up among
the extra attributes; `none` models a column the row does not carry. -/
def getVal (r : Row) (c : String) : Option String :=
  if c = "name" then some r.name
  else if c = "parent" then some r.parent
  else r.attrs.lookup c

/-- Translation of `filter_dataframe` (tree_viewer_logic.py, lines
186-204).  `cols` is `df.columns`.  A constraint `(column, values)` is
applied only when `values` is non-empty (`if values`) and the column
exists (`column in filtered_df.columns`); applying it keeps the rows
whose value in that column is among `values` (`isin`). -/
def filter_dataframe (cols : List String) (rows : List Row)
    (filters : List (String × List String)) : List Row :=
  rows.filter (fun r =>
    filters.all (fun cv =>
      cv.2.isEmpty || !(cols.contains cv.1) ||
        (match getVal r cv.1 with
         | some v => cv.2.contains v
         | none => false)))

/-- The `while current in parents_map and current not in visited` loop of
`filter_with_ancestors` (tree_viewer_logic.py, lines 233-241): returns the
list of parents added to `ancestors_to_include` by the walk that starts at
`current` with the given per-walk visited set. -/
def ancestor_walk (pm : PMap) (all_names : List String) :
    String → List String → List String
  | current, visited =>
    match hlk : pm.lookup current with
    | none => []
    | some parent =>
      if hv : visited.contains current then []
      else
        (if all_names.contains parent then [parent] else []) ++
          ancestor_walk pm all_names parent (current :: visited)
termination_by current visited => unvisitedCount (pm.map Prod.fst) visited
decreasing_by
  simp_wf
  exact unvisitedCount_lt_cons _ _
    (fun hmem => hv (contains_true_iff.mpr hmem)) _
    (mem_keys_of_lookup_eq_some hlk)

/-- Translation of `filter_with_ancestors` (tree_viewer_logic.py, lines
207-247): the directly matching rows plus, for every matching name, all
ancestors collected by walking the full parents map upward. -/
def filter_with_ancestors (cols : List String) (rows : List Row)
    (filters : List (String × List String)) : List Row :=
  if filters.isEmpty then rows
  else
    let matching_names := (filter_dataframe cols rows filters).map Row.name
    let parents_map := build_parents_map rows
    let all_names := rows.map Row.name
    let ancestors := matching_names.foldl
      (fun acc n => acc ++ ancestor_walk parents_map all_names n []) []
    let nodes_to_include := matching_names ++ ancestors
    rows.filter (fun r => nodes_to_include.contains r.name)

/-! ### Plain-text tree export (vault_crawler.py) -/

/-- `"\t" * n`. -/
def tabsFor (n : Nat) : String :=
  String.join (List.replicate n "\t")

mutual
/-- Translation of `generate_tree_md` (vault_crawler.py, lines 220-259).
On a revisited name the function returns the empty string; otherwise it
emits one line for the note (bare `[[name]]` at indent 0, otherwise
`(indent-1)` tabs, a dash, a space and the bracketed name) followed by the
rendering of its children, each with a copy of the visited set extended
with the current name. -/
def generate_tree_md (cm : CMap) : String → Nat → List String → String
  | name, indent, visited =>
    if hv : visited.contains name then ""
    else
      let line := if indent = 0 then "[[" ++ name ++ "]]\n"
        else tabsFor (indent - 1) ++ "- [[" ++ name ++ "]]\n"
      match hlk : cm.lookup name with
      | none => line
      | some children =>
          line ++ mdChildren cm children (indent + 1) (name :: visited)
termination_by name indent visited =>
  (unvisitedCount (cm.map Prod.fst) visited, 0)
decreasing_by
  simp_wf
  apply Prod.Lex.left
  exact unvisitedCount_lt_cons visited name
    (fun hmem => hv (contains_true_iff.mpr hmem)) _
    (mem_keys_of_lookup_eq_some hlk)

/-- The `for child in children` loop of `generate_tree_md`. -/
def mdChildren (cm : CMap) : List String → Nat → List String → String
  | [], _, _ => ""
  | c :: cs, indent, visited =>
      generate_tree_md cm c indent visited ++ mdChildren cm cs indent visited
termination_by l indent visited =>
  (unvisitedCount (cm.map Prod.fst) visited, l.length + 1)
decreasing_by
  · simp_wf
    exact lex_of_le_of_lt (Nat.le_refl _) (by omega)
  · simp_wf
    exact lex_of_le_of_lt (Nat.le_refl _) (by omega)
end

/-! ### Display-tree measurements (not part of the source: used to state
properties about the builders' output) -/

mutual
/-- Number of edges on a longest root-to-leaf path of a display node
(0 for a node without children entry or with an empty children list). -/
def nodeDepth : TreeNode → Nat
  | .node _ none => 0
  | .node _ (some cs) => depthList cs

/-- `max` over `1 + nodeDepth child`. -/
def depthList : List TreeNode → Nat
  | [] => 0
  | t :: ts => max (1 + nodeDepth t) (depthList ts)
end

/-! ### Record extractor (vault_crawler.py, `parse_frontmatter`) -/

/-- Does `\s*\n` match at the front of the character list? -/
def wsThenNL : List Char → Bool
  | [] => false
  | c :: cs => if c = '\n' then true else if isWS c then wsThenNL cs else false

/-- Does the regex `\n---\s*\n` match starting exactly here? -/
def delimAt : List Char → Bool
  | '\n' :: '-' :: '-' :: '-' :: rest => wsThenNL rest
  | _ => false

/-- `re.search(r'\n---\s*\n', ...)`: index of the leftmost match of the
closing-delimiter pattern, `none` if it never matches
(`end_match.start()` is the only part of the match the code uses). -/
def findDelim : List Char → Option Nat
  | [] => none
  | l@(_ :: rest) =>
      if delimAt l then some 0 else (findDelim rest).map (· + 1)

/-- Python `text.split('\n')` (keeps empty segments). -/
def splitOnNL : List Char → List (List Char)
  | [] => [[]]
  | '\n' :: rest => [] :: splitOnNL rest
  | c :: rest =>
    match splitOnNL rest with
    | [] => [[c]]
    | l :: ls => (c :: l) :: ls

/-- The quote-stripping step of `parse_frontmatter`: remove a matching
pair of surrounding `"` quotes, else a matching pair of surrounding
`'` quotes. -/
def stripQuotes (v : List Char) : List Char :=
  if v.head? = some '"' && v.getLast? = some '"' then
    (v.drop 1).dropLast
  else if v.head? = some '\'' && v.getLast? = some '\'' then
    (v.drop 1).dropLast
  else v

/-- One iteration of the `for line in fm_content.split('\n')` loop of
`parse_frontmatter`: strip the line; if it contains `:`, split on the
first `:`, strip key and value, strip quotes from the value, and assign
into the dictionary. -/
def processLine (m : List (String × String)) (lineChars : List Char) :
    List (String × String) :=
  let line := stripWS lineChars
  if line.contains ':' then
    let key := stripWS (line.takeWhile (fun c => c ≠ ':'))
    let value := stripQuotes (stripWS ((line.dropWhile (fun c => c ≠ ':')).drop 1))
    pmInsert m (String.mk key) (String.mk value)
  else m

/-- Translation of `parse_frontmatter` (vault_crawler.py, lines 21-61):
empty dictionary unless the text starts with the three characters `---`
and the closing pattern `\n---\s*\n` occurs in `content[3:]`; otherwise
the block `content[4 : match_start + 3]` is parsed line by line. -/
def parse_frontmatter (content : String) : List (String × String) :=
  if !("---".data.isPrefixOf content.data) then []
  else
    match findDelim (content.data.drop 3) with
    | none => []
    | some i =>
      let fm_content := (content.data.drop 4).take (i + 3 - 4)
      (splitOnNL fm_content).foldl processLine []

mutual
/-- Every node name occurring in a display tree. -/
def treeNames : TreeNode → List String
  | .node n none => [n]
  | .node n (some cs) => n :: namesList cs

/-- Names of a list of display trees. -/
def namesList : List TreeNode → List String
  | [] => []
  | t :: ts => treeNames t ++ namesList ts
end

/-! ### Helper lemmas about the embedded functions -/

theorem contains_false_iff {l : List String} {a : String} :
    l.contains a = false ↔ a ∉ l := by
  simp [List.contains, List.elem_eq_mem]

theorem depthList_le {k : Nat} :
    ∀ ts : List TreeNode, (∀ t ∈ ts, 1 + nodeDepth t ≤ k) → depthList ts ≤ k := by
  intro ts
  induction ts with
  | nil => intro _; simp [depthList]
  | cons t ts ih =>
    intro h
    rw [depthList]
    exact max_le (h t (List.mem_cons_self t ts))
      (ih fun u hu => h u (List.mem_cons_of_mem t hu))

theorem nodeDepth_build_tree_le (cm : CMap) (note_names : List String) :
    ∀ (depth : Nat) (root : String) (visited : List String),
      nodeDepth (build_tree_data cm note_names root visited depth) ≤ depth := by
  intro depth
  induction depth with
  | zero => intro root visited; simp [build_tree_data, nodeDepth]
  | succ d ih =>
    intro root visited
    rw [build_tree_data]
    split
    · simp [nodeDepth]
    · split
      · simp [nodeDepth]
      · rw [nodeDepth]
        apply depthList_le
        intro t ht
        rcases List.mem_map.mp ht with ⟨c, _, rfl⟩
        have hc := ih c (root :: visited)
        omega

theorem nodeDepth_build_inverted_le (pm : PMap) (note_names : List String) :
    ∀ (depth : Nat) (leaf : String) (visited : List String),
      nodeDepth (build_inverted_tree_data pm note_names leaf visited depth) ≤ depth := by
  intro depth
  induction depth with
  | zero => intro leaf visited; simp [build_inverted_tree_data, nodeDepth]
  | succ d ih =>
    intro leaf visited
    rw [build_inverted_tree_data]
    split
    · simp [nodeDepth]
    · split
      · simp [nodeDepth]
      · rename_i parent heq
        split
        · simp only [nodeDepth, depthList, Nat.max_zero]
          have hc := ih parent (leaf :: visited)
          omega
        · simp [nodeDepth]

/-! ### The claims -/

/-- The two-record collection of the mutual-cycle scenario: A's parent is
B and B's parent is A. -/
def cycleRows : List Row :=
  [{ name := "A", parent := "B", attrs := [] },
   { name := "B", parent := "A", attrs := [] }]

/-- C4: for the record collection containing exactly the records A with
parent B and B with parent A, `build_tree_data "A"` over the derived
children map terminates and returns the nested structure
A → [B → [A]] where the inner A is a leaf without a children entry. -/
theorem c4_build_tree_mutual_cycle :
    build_tree_data (build_children_map cycleRows) (cycleRows.map Row.name)
        "A" [] 20 =
      TreeNode.node "A" (some [TreeNode.node "B"
        (some [TreeNode.node "A" none])]) := rfl

/-- A one-record collection whose parent reference names no existing
record. -/
def ghostRows : List Row :=
  [{ name := "a", parent := "ghost", attrs := [] }]

/-- C10: `find_roots` and the roots of `compute_tree_stats` are not
equivalent: for a record whose non-empty parent names no existing record,
the record is in `find_roots` but not in the stats' `roots`, so the root
counts differ. -/
theorem c10_find_roots_vs_stats_roots :
    find_roots ghostRows = ["a"] ∧
    (compute_tree_stats ghostRows).roots = [] ∧
    (compute_tree_stats ghostRows).root_count ≠ (find_roots ghostRows).length := by
  refine ⟨by decide, by decide, by decide⟩

/-- C7 (amended): every traversal guards against cycles with a visited-set
check and terminates (the Lean translations are total functions); on a
revisited name the two display-tree builders return the repeated node as a
leaf without children, while the plain-text exporter returns the empty
string, i.e. it omits the repeated node instead of emitting it as a leaf. -/
theorem c7_cycle_guard_behaviour :
    ∀ (cm : CMap) (pm : PMap) (note_names : List String) (n : String)
      (visited : List String) (depth indent : Nat),
      n ∈ visited →
      build_tree_data cm note_names n visited depth = TreeNode.node n none ∧
      build_inverted_tree_data pm note_names n visited depth = TreeNode.node n none ∧
      generate_tree_md cm n indent visited = "" := by
  intro cm pm note_names n visited depth indent h
  have hc : visited.contains n = true := contains_true_iff.mpr h
  refine ⟨?_, ?_, ?_⟩
  · cases depth with
    | zero => rfl
    | succ d => rw [build_tree_data, if_pos hc]
  · cases depth with
    | zero => rfl
    | succ d => rw [build_inverted_tree_data, if_pos hc]
  · simp only [generate_tree_md]
    rw [dif_pos hc]

/-- Witness for C7's amended theorem at a concrete input. -/
theorem c7_cycle_guard_witness :
    build_tree_data [] [] "x" ["x"] 20 = TreeNode.node "x" none ∧
    build_inverted_tree_data [] [] "x" ["x"] 20 = TreeNode.node "x" none ∧
    generate_tree_md [] "x" 0 ["x"] = "" :=
  c7_cycle_guard_behaviour [] [] [] "x" ["x"] 20 0 (by decide)

/-- C7 (counterexample): over the children map derived from the A↔B
cycle, the plain-text export of the tree rooted at A is exactly
`[[A]]` and `- [[B]]` — the repeated node A is never emitted as a leaf
line, contrary to the claim that every traversal emits the repeated node
as a leaf (the display-tree builders do emit it; the exporter returns the
empty string for it). -/
theorem c7_export_omits_repeated_node :
    generate_tree_md (build_children_map cycleRows) "A" 0 [] =
      "[[A]]\n- [[B]]\n" := by
  have hcm : build_children_map cycleRows = [("B", ["A"]), ("A", ["B"])] := rfl
  rw [hcm]
  simp [generate_tree_md, mdChildren, tabsFor, List.lookup, String.join]

/-- C5: for every children map and parents map (hence for every record
collection, also cyclic ones), both tree builders are total functions of
their arguments, and the number of edges on the longest root-to-leaf path
of the returned display tree never exceeds the `max_depth` argument
(whose default in the source is 20). -/
theorem c5_tree_depth_bounded :
    ∀ (cm : CMap) (pm : PMap) (note_names : List String) (root : String)
      (visited : List String) (depth : Nat),
      nodeDepth (build_tree_data cm note_names root visited depth) ≤ depth ∧
      nodeDepth (build_inverted_tree_data pm note_names root visited depth) ≤ depth :=
  fun cm pm note_names root visited depth =>
    ⟨nodeDepth_build_tree_le cm note_names depth root visited,
     nodeDepth_build_inverted_le pm note_names depth root visited⟩

/-- C8 (counterexample): two documents on which `parse_frontmatter`
returns a non-empty mapping although the claim requires an empty mapping:
the first does not begin with a line containing only `---` (its first
line is `---x`), the second has no second line containing only `---`
(the closing line is `---` followed by spaces).  The code only tests
`content.startswith('---')` and the pattern `\n---\s*\n`. -/
theorem c8_delimiter_counterexample :
    parse_frontmatter "---x\nkey: val\n---\n" = [("key", "val")] ∧
    parse_frontmatter "---\nkey: val\n---   \nbody" = [("key", "val")] :=
  ⟨by decide, by decide⟩

/-- C8 (amended): `parse_frontmatter` returns the empty mapping whenever
the text does not start with the three characters `---` (not necessarily
a full `---` line) or the pattern newline-`---`-optional whitespace-
newline never occurs after the first three characters; when the block is
present, each inner line containing `:` is split on the first `:` into
key and value (both whitespace-stripped) and a matching pair of
surrounding quote characters is stripped from the value, as exhibited on
the concrete document of the second conjunct. -/
theorem c8_parse_frontmatter_empty_cases :
    (∀ content : String,
      (¬ "---".data.isPrefixOf content.data → parse_frontmatter content = []) ∧
      (findDelim (content.data.drop 3) = none → parse_frontmatter content = [])) ∧
    parse_frontmatter "---\na: \"q\"\nb: cc\nc:d\nplain line\n---\nrest" =
      [("a", "q"), ("b", "cc"), ("c", "d")] := by
  constructor
  · intro content
    constructor
    · intro h
      have hb : "---".data.isPrefixOf content.data = false :=
        Bool.eq_false_iff.mpr (fun hx => h hx)
      simp [parse_frontmatter, hb]
    · intro h
      cases hx : "---".data.isPrefixOf content.data with
      | false => simp [parse_frontmatter, hx]
      | true => simp [parse_frontmatter, hx, h]
  · decide

/-- Witness for C8's amended theorem at concrete inputs. -/
theorem c8_parse_frontmatter_witness :
    parse_frontmatter "no block here" = [] ∧
    parse_frontmatter "---\nkey: val" = [] :=
  ⟨(c8_parse_frontmatter_empty_cases.1 "no block here").1 (by decide),
   (c8_parse_frontmatter_empty_cases.1 "---\nkey: val").2 (by decide)⟩

/-- The filter semantics in the claim's own words (C6): keep exactly the
records for which, for every constrained column present in the record,
the record's value in that column is a member of the accepted set;
columns absent from the constraint mapping impose no restriction. -/
def filterRecordsSpec (rows : List Row)
    (filters : List (String × List String)) : List Row :=
  rows.filter (fun r =>
    filters.all (fun cv =>
      match getVal r cv.1 with
      | some v => cv.2.contains v
      | none => true))

/-- One record carrying a `status` value. -/
def c6Rows : List Row :=
  [{ name := "a", parent := "", attrs := [("status", "x")] }]

/-- C6 (counterexample): a constraint whose accepted-value set is empty.
The claim's semantics rejects the record (its `status` value `x` is not a
member of the empty set), but `filter_dataframe` skips constraints with
empty value lists (`if values`), so the record is kept. -/
theorem c6_empty_accepted_set_counterexample :
    filter_dataframe ["name", "parent", "status"] c6Rows [("status", [])] =
      c6Rows ∧
    filterRecordsSpec c6Rows [("status", [])] = [] :=
  ⟨by decide, by decide⟩

/-- C6 (amended): `filter_dataframe` keeps exactly the records that, for
every constraint whose accepted set is non-empty and whose column occurs
among the collection's columns, carry a value in that column belonging to
the accepted set; constraints with an empty accepted set and constraints
on absent columns impose no restriction (and columns absent from the
constraint mapping impose no restriction). -/
theorem c6_filter_dataframe_characterization :
    ∀ (cols : List String) (rows : List Row)
      (filters : List (String × List String)) (r : Row),
      r ∈ filter_dataframe cols rows filters ↔
        r ∈ rows ∧ ∀ cv ∈ filters, cv.2 ≠ [] → cv.1 ∈ cols →
          ∃ v, getVal r cv.1 = some v ∧ v ∈ cv.2 := by
  intro cols rows filters r
  rw [filter_dataframe, List.mem_filter, List.all_eq_true]
  apply and_congr_right
  intro _
  constructor
  · intro h cv hcv hne hc
    have hb := h cv hcv
    simp only [Bool.or_eq_true, List.isEmpty_iff, Bool.not_eq_true'] at hb
    rcases hb with (hb | hb) | hb
    · exact absurd hb hne
    · exact absurd hc (contains_false_iff.mp hb)
    · cases hg : getVal r cv.1 with
      | none => rw [hg] at hb; simp at hb
      | some v => rw [hg] at hb; exact ⟨v, rfl, contains_true_iff.mp hb⟩
  · intro h cv hcv
    simp only [Bool.or_eq_true, List.isEmpty_iff, Bool.not_eq_true']
    by_cases hne : cv.2 = []
    · exact Or.inl (Or.inl hne)
    · by_cases hc : cv.1 ∈ cols
      · rcases h cv hcv hne hc with ⟨v, hg, hv⟩
        refine Or.inr ?_
        rw [hg]
        exact contains_true_iff.mpr hv
      · exact Or.inl (Or.inr (contains_false_iff.mpr hc))

/-- Witness for C6's amended theorem at a concrete input. -/
theorem c6_filter_dataframe_witness :
    ({ name := "a", parent := "", attrs := [("status", "x")] } : Row) ∈
      filter_dataframe ["name", "parent", "status"] c6Rows
        [("status", ["x", "y"])] :=
  (c6_filter_dataframe_characterization ["name", "parent", "status"] c6Rows
      [("status", ["x", "y"])] _).mpr
    ⟨by decide, by
      intro cv hcv hne hc
      rcases List.mem_cons.mp hcv with rfl | hcv'
      · exact ⟨"x", by decide, by decide⟩
      · cases hcv'⟩

theorem mem_namesList {n : String} :
    ∀ ts : List TreeNode, n ∈ namesList ts ↔ ∃ t ∈ ts, n ∈ treeNames t := by
  intro ts
  induction ts with
  | nil => simp [namesList]
  | cons t ts ih =>
    rw [namesList, List.mem_append, ih]
    constructor
    · rintro (h | ⟨u, hu, hnu⟩)
      · exact ⟨t, List.mem_cons_self t ts, h⟩
      · exact ⟨u, List.mem_cons_of_mem t hu, hnu⟩
    · rintro ⟨u, hu, hnu⟩
      rcases List.mem_cons.mp hu with rfl | hu'
      · exact Or.inl hnu
      · exact Or.inr ⟨u, hu', hnu⟩

theorem rootName_build_tree (cm : CMap) (note_names : List String)
    (depth : Nat) (root : String) (visited : List String) :
    (build_tree_data cm note_names root visited depth).rootName = root := by
  cases depth with
  | zero => rfl
  | succ d =>
    rw [build_tree_data]
    split
    · rfl
    · split <;> rfl

theorem rootName_build_inverted (pm : PMap) (note_names : List String)
    (depth : Nat) (leaf : String) (visited : List String) :
    (build_inverted_tree_data pm note_names leaf visited depth).rootName = leaf := by
  cases depth with
  | zero => rfl
  | succ d =>
    rw [build_inverted_tree_data]
    split
    · rfl
    · split
      · rfl
      · split <;> rfl

theorem treeNames_build_tree (cm : CMap) (note_names : List String) :
    ∀ (depth : Nat) (root : String) (visited : List String) (n : String),
      n ∈ treeNames (build_tree_data cm note_names root visited depth) →
      n = root ∨ n ∈ note_names := by
  intro depth
  induction depth with
  | zero =>
    intro root visited n hn
    rw [build_tree_data, treeNames] at hn
    exact Or.inl (List.mem_singleton.mp hn)
  | succ d ih =>
    intro root visited n hn
    rw [build_tree_data] at hn
    split at hn
    · rw [treeNames] at hn
      exact Or.inl (List.mem_singleton.mp hn)
    · split at hn
      · rw [treeNames] at hn
        exact Or.inl (List.mem_singleton.mp hn)
      · rw [treeNames] at hn
        rcases List.mem_cons.mp hn with rfl | hn'
        · exact Or.inl rfl
        · rcases (mem_namesList _).mp hn' with ⟨t, ht, hnt⟩
          rcases List.mem_map.mp ht with ⟨c, hc, rfl⟩
          have hcmem : c ∈ note_names :=
            contains_true_iff.mp (List.mem_filter.mp hc).2
          rcases ih c (root :: visited) n hnt with rfl | h
          · exact Or.inr hcmem
          · exact Or.inr h

theorem treeNames_build_inverted (pm : PMap) (note_names : List String) :
    ∀ (depth : Nat) (leaf : String) (visited : List String) (n : String),
      n ∈ treeNames (build_inverted_tree_data pm note_names leaf visited depth) →
      n = leaf ∨ n ∈ note_names := by
  intro depth
  induction depth with
  | zero =>
    intro leaf visited n hn
    rw [build_inverted_tree_data, treeNames] at hn
    exact Or.inl (List.mem_singleton.mp hn)
  | succ d ih =>
    intro leaf visited n hn
    rw [build_inverted_tree_data] at hn
    split at hn
    · rw [treeNames] at hn
      exact Or.inl (List.mem_singleton.mp hn)
    · split at hn
      · rw [treeNames] at hn
        exact Or.inl (List.mem_singleton.mp hn)
      · rename_i parent heq
        split at hn
        · rename_i hcond
          rw [treeNames] at hn
          rcases List.mem_cons.mp hn with rfl | hn'
          · exact Or.inl rfl
          · rcases (mem_namesList _).mp hn' with ⟨t, ht, hnt⟩
            rcases List.mem_singleton.mp ht with rfl
            have hpmem : parent ∈ note_names := by
              have h2 := hcond
              rw [Bool.and_eq_true] at h2
              exact contains_true_iff.mp h2.2
            rcases ih parent (leaf :: visited) n hnt with rfl | h
            · exact Or.inr hpmem
            · exact Or.inr h
        · rw [treeNames] at hn
          exact Or.inl (List.mem_singleton.mp hn)

/-- C9: for every children map, parents map, valid-name set and depth,
both builders return a tree whose root node is named by the root argument
(even when that argument is not a valid name), and every other node name
in the output is a member of the valid-name set. -/
theorem c9_root_name_and_valid_names :
    ∀ (cm : CMap) (pm : PMap) (note_names : List String) (root : String)
      (visited : List String) (depth : Nat),
      (build_tree_data cm note_names root visited depth).rootName = root ∧
      (∀ n ∈ treeNames (build_tree_data cm note_names root visited depth),
        n = root ∨ n ∈ note_names) ∧
      (build_inverted_tree_data pm note_names root visited depth).rootName = root ∧
      (∀ n ∈ treeNames (build_inverted_tree_data pm note_names root visited depth),
        n = root ∨ n ∈ note_names) :=
  fun cm pm note_names root visited depth =>
    ⟨rootName_build_tree cm note_names depth root visited,
     fun n hn => treeNames_build_tree cm note_names depth root visited n hn,
     rootName_build_inverted pm note_names depth root visited,
     fun n hn => treeNames_build_inverted pm note_names depth root visited n hn⟩

/-- Witness for C9 at a concrete input whose root argument `r` is not a
valid name. -/
theorem c9_root_name_witness :
    (build_tree_data [("r", ["v"])] ["v"] "r" [] 20).rootName = "r" ∧
    (build_inverted_tree_data [("r", "v")] ["v"] "r" [] 20).rootName = "r" :=
  ⟨(c9_root_name_and_valid_names [("r", ["v"])] [("r", "v")] ["v"] "r" [] 20).1,
   (c9_root_name_and_valid_names [("r", ["v"])] [("r", "v")] ["v"] "r" [] 20).2.2.1⟩

theorem mem_insertBy {le : String → String → Bool} {a x : String} :
    ∀ l : List String, x ∈ insertBy le a l ↔ x = a ∨ x ∈ l := by
  intro l
  induction l with
  | nil => simp [insertBy]
  | cons b bs ih =>
    rw [insertBy]
    split
    · simp [List.mem_cons]
    · rw [List.mem_cons, ih]
      simp only [List.mem_cons]
      tauto

theorem mem_sortBy {le : String → String → Bool} {x : String} :
    ∀ l : List String, x ∈ sortBy le l ↔ x ∈ l := by
  intro l
  induction l with
  | nil => simp [sortBy]
  | cons a as ih =>
    rw [sortBy, mem_insertBy, ih, List.mem_cons]

theorem pairwise_insertBy {le : String → String → Bool}
    (total : ∀ a b, le a b = true ∨ le b a = true)
    (htrans : ∀ a b c, le a b = true → le b c = true → le a c = true)
    (a : String) :
    ∀ l : List String, l.Pairwise (fun x y => le x y = true) →
      (insertBy le a l).Pairwise (fun x y => le x y = true) := by
  intro l
  induction l with
  | nil => intro _; simp [insertBy]
  | cons b bs ih =>
    intro h
    have hb := List.pairwise_cons.mp h
    rw [insertBy]
    split
    · rename_i hle
      refine List.Pairwise.cons ?_ h
      intro y hy
      rcases List.mem_cons.mp hy with rfl | hy'
      · exact hle
      · exact htrans a b y hle (hb.1 y hy')
    · rename_i hle
      refine List.Pairwise.cons ?_ (ih hb.2)
      intro y hy
      rcases (mem_insertBy bs).mp hy with rfl | hy'
      · rcases total y b with h1 | h2
        · exact absurd h1 hle
        · exact h2
      · exact hb.1 y hy'

theorem pairwise_sortBy {le : String → String → Bool}
    (total : ∀ a b, le a b = true ∨ le b a = true)
    (htrans : ∀ a b c, le a b = true → le b c = true → le a c = true) :
    ∀ l : List String, (sortBy le l).Pairwise (fun x y => le x y = true) := by
  intro l
  induction l with
  | nil => simp [sortBy]
  | cons a as ih =>
    rw [sortBy]
    exact pairwise_insertBy total htrans a _ ih

theorem lexLe_total : ∀ xs ys : List Char,
    lexLe xs ys = true ∨ lexLe ys xs = true := by
  intro xs
  induction xs with
  | nil => intro ys; exact Or.inl rfl
  | cons a as ih =>
    intro ys
    cases ys with
    | nil => exact Or.inr rfl
    | cons b bs =>
      rw [lexLe, lexLe]
      by_cases hab : a.toNat = b.toNat
      · rw [if_pos hab, if_pos hab.symm]
        exact ih bs
      · rw [if_neg hab, if_neg (fun h => hab h.symm)]
        rcases Nat.lt_or_ge a.toNat b.toNat with h | h
        · exact Or.inl (decide_eq_true h)
        · have hba : b.toNat < a.toNat :=
            Nat.lt_of_le_of_ne h (fun e => hab e.symm)
          exact Or.inr (decide_eq_true hba)

theorem lexLe_trans : ∀ xs ys zs : List Char,
    lexLe xs ys = true → lexLe ys zs = true → lexLe xs zs = true := by
  intro xs
  induction xs with
  | nil => intro ys zs _ _; rfl
  | cons a as ih =>
    intro ys zs h1 h2
    cases ys with
    | nil => rw [lexLe] at h1; exact Bool.noConfusion h1
    | cons b bs =>
      cases zs with
      | nil => rw [lexLe] at h2; exact Bool.noConfusion h2
      | cons c cs =>
        rw [lexLe] at h1 h2 ⊢
        by_cases hab : a.toNat = b.toNat
        · rw [if_pos hab] at h1
          by_cases hbc : b.toNat = c.toNat
          · rw [if_pos hbc] at h2
            rw [if_pos (hab.trans hbc)]
            exact ih bs cs h1 h2
          · rw [if_neg hbc] at h2
            have hlt : b.toNat < c.toNat := of_decide_eq_true h2
            rw [if_neg (by omega : ¬a.toNat = c.toNat)]
            exact decide_eq_true (by omega)
        · rw [if_neg hab] at h1
          have h1lt : a.toNat < b.toNat := of_decide_eq_true h1
          by_cases hbc : b.toNat = c.toNat
          · rw [if_neg (by omega : ¬a.toNat = c.toNat)]
            exact decide_eq_true (by omega)
          · rw [if_neg hbc] at h2
            have h2lt : b.toNat < c.toNat := of_decide_eq_true h2
            rw [if_neg (by omega : ¬a.toNat = c.toNat)]
            exact decide_eq_true (by omega)

theorem leLower_total : ∀ a b : String,
    leLower a b = true ∨ leLower b a = true := by
  intro a b
  exact lexLe_total _ _

theorem leLower_trans : ∀ a b c : String,
    leLower a b = true → leLower b c = true → leLower a c = true := by
  intro a b c h1 h2
  exact lexLe_trans _ _ _ h1 h2

/-- C2: under the data-model invariant that record names are unique, a
record's name is in `find_roots` exactly when its stripped parent is
empty or does not occur among the record names, and the output is sorted
case-insensitively (non-decreasing under the lowercased comparison). -/
theorem c2_find_roots_membership_sorted :
    ∀ rows : List Row, (rows.map Row.name).Nodup →
      (∀ r ∈ rows,
        (r.name ∈ find_roots rows ↔
          (pyStrip r.parent = "" ∨ pyStrip r.parent ∉ rows.map Row.name))) ∧
      (find_roots rows).Pairwise (fun a b => leLower a b = true) := by
  intro rows hnd
  constructor
  · intro r hr
    rw [find_roots, mem_sortBy]
    constructor
    · intro hmem
      rcases List.mem_map.mp hmem with ⟨r', hr', hname⟩
      have hf := List.mem_filter.mp hr'
      have heq : r' = r := List.inj_on_of_nodup_map hnd hf.1 hr hname
      subst heq
      have hc := hf.2
      simp only [Bool.or_eq_true, decide_eq_true_eq, Bool.not_eq_true'] at hc
      rcases hc with hc | hc
      · exact Or.inl hc
      · exact Or.inr (contains_false_iff.mp hc)
    · intro hcond
      apply List.mem_map.mpr
      refine ⟨r, List.mem_filter.mpr ⟨hr, ?_⟩, rfl⟩
      simp only [Bool.or_eq_true, decide_eq_true_eq, Bool.not_eq_true']
      rcases hcond with hc | hc
      · exact Or.inl hc
      · exact Or.inr (contains_false_iff.mpr hc)
  · rw [find_roots]
    exact pairwise_sortBy leLower_total leLower_trans _

/-- Rows for the C2 witness: `b` has no parent, `a` has a dangling
parent. -/
def c2Rows : List Row :=
  [{ name := "b", parent := "", attrs := [] },
   { name := "a", parent := "ghost", attrs := [] }]

/-- Witness for C2 at a concrete collection. -/
theorem c2_find_roots_witness :
    ("a" ∈ find_roots c2Rows ↔
      (pyStrip "ghost" = "" ∨ pyStrip "ghost" ∉ c2Rows.map Row.name)) ∧
    (find_roots c2Rows).Pairwise (fun a b => leLower a b = true) :=
  ⟨(c2_find_roots_membership_sorted c2Rows (by decide)).1
      ⟨"a", "ghost", []⟩ (by decide),
   (c2_find_roots_membership_sorted c2Rows (by decide)).2⟩

/-! ### C1: what `count_descendants` counts -/

/-- Branch lemma: a visited node contributes nothing. -/
theorem count_descendants_eq_visited (cm : CMap) (n : String)
    (vis : List String) (h : vis.contains n = true) :
    count_descendants cm n vis = (0, []) := by
  simp only [count_descendants]
  rw [dif_pos h]

/-- Branch lemma: an unvisited node that is no key of the map. -/
theorem count_descendants_eq_none (cm : CMap) (n : String)
    (vis : List String) (hv : ¬vis.contains n = true)
    (hlk : cm.lookup n = none) :
    count_descendants cm n vis = (0, [n]) := by
  simp only [count_descendants]
  rw [dif_neg hv]
  split
  · rfl
  · rename_i children hsome
    rw [hlk] at hsome
    exact Option.noConfusion hsome

/-- Branch lemma: an unvisited key expands its children. -/
theorem count_descendants_eq_some (cm : CMap) (n : String)
    (vis : List String) (children : List String)
    (hv : ¬vis.contains n = true) (hlk : cm.lookup n = some children) :
    count_descendants cm n vis =
      ((cdChildren cm children (n :: vis)).1,
        n :: (cdChildren cm children (n :: vis)).2) := by
  simp only [count_descendants]
  rw [dif_neg hv]
  split
  · rename_i hnone
    rw [hlk] at hnone
    exact Option.noConfusion hnone
  · rename_i children' hsome
    rw [hlk] at hsome
    cases hsome
    rfl

/-- Branch lemma: the empty child list. -/
theorem cdChildren_nil (cm : CMap) (vis : List String) :
    cdChildren cm [] vis = (0, []) := by
  simp [cdChildren]

/-- Branch lemma: one step of the child loop. -/
theorem cdChildren_cons (cm : CMap) (child : String) (rest vis : List String) :
    cdChildren cm (child :: rest) vis =
      ((count_descendants cm child vis).1 + 1 +
        (cdChildren cm rest ((count_descendants cm child vis).2 ++ vis)).1,
       (count_descendants cm child vis).2 ++
        (cdChildren cm rest ((count_descendants cm child vis).2 ++ vis)).2) := by
  simp [cdChildren]

/-- C1 (amended): `count_descendants` does not count each reachable node
once; it returns the total number of child-list entries of the nodes it
expands.  The second component of the translated pair is the list of
names the call added to the shared visited set (each node is expanded at
most once), and the count adds 1 for every entry of every expanded node's
child list — so a node reachable along several edges from expanded
parents (a diamond) is counted once per such edge. -/
theorem c1_count_descendants_counts_edges :
    ∀ (cm : CMap) (node_name : String) (visited : List String),
      (count_descendants cm node_name visited).1 =
        (((count_descendants cm node_name visited).2).map
          (fun u => (childrenOf cm u).length)).sum := by
  intro cm node_name visited
  refine count_descendants.induct cm
    (fun n vis => (count_descendants cm n vis).1 =
      (((count_descendants cm n vis).2).map
        (fun u => (childrenOf cm u).length)).sum)
    (fun l vis => (cdChildren cm l vis).1 =
      l.length + (((cdChildren cm l vis).2).map
        (fun u => (childrenOf cm u).length)).sum)
    ?_ ?_ ?_ ?_ ?_ node_name visited
  · intro n vis h
    rw [count_descendants_eq_visited cm n vis h]
    rfl
  · intro n vis hv hlk
    rw [count_descendants_eq_none cm n vis hv hlk]
    simp [childrenOf, hlk]
  · intro n vis hv children hlk ih
    rw [count_descendants_eq_some cm n vis children hv hlk]
    have hchildren : (childrenOf cm n).length = children.length := by
      simp [childrenOf, hlk]
    simp only [List.map_cons, List.sum_cons]
    rw [hchildren]
    omega
  · intro vis
    rw [cdChildren_nil]
    rfl
  · intro child rest vis r1 ih1 ih2
    have hr1 : r1 = count_descendants cm child vis := rfl
    rw [hr1] at ih2
    simp only at ih1 ih2 ⊢
    rw [cdChildren_cons]
    simp only [List.map_append, List.sum_append, List.length_cons]
    omega

/-- Claim-side notion for C1: the distinct names reachable from `n` via
the children map (including `n` itself), computed by saturation;
`cm.length + 1` expansion rounds cover every reachable name, because a
shortest path visits each key of the map at most once. -/
def reachableNames (cm : CMap) (n : String) : List String :=
  (fun s => (s ++ s.flatMap (childrenOf cm)).dedup)^[cm.length + 1] [n]

/-- The diamond-shaped children map: A has children B and C, and D is a
child of both B and C. -/
def diamondMap : CMap := [("A", ["B", "C"]), ("B", ["D"]), ("C", ["D"])]

/-- C1 (counterexample): on the diamond map, `count_descendants` returns
4 although only the 3 distinct names B, C, D are reachable from A and
distinct from it: the `1 +` in `count += 1 + count_descendants(child,...)`
is added once per edge into D even though the shared visited set stops
the recursion from expanding D twice. -/
theorem c1_diamond_counterexample :
    (count_descendants diamondMap "A" []).1 = 4 ∧
    ((reachableNames diamondMap "A").filter (fun x => x ≠ "A")).length = 3 := by
  constructor
  · simp [count_descendants, cdChildren, List.lookup, diamondMap]
  · decide

/-! ### C3: `filter_with_ancestors` is a superset of `filter_dataframe`
and closed under existing parents -/

/-- The entry a row contributes to the parents map. -/
def pmEntry (r : Row) : Option (String × String) :=
  if pyStrip r.parent = "" then none else some (r.name, pyStrip r.parent)

theorem keys_filterMap_pmEntry (rows : List Row) :
    ∀ kv ∈ rows.filterMap pmEntry, kv.1 ∈ rows.map Row.name := by
  intro kv hkv
  rcases List.mem_filterMap.mp hkv with ⟨r, hr, he⟩
  unfold pmEntry at he
  split at he
  · exact Option.noConfusion he
  · cases he
    exact List.mem_map.mpr ⟨r, hr, rfl⟩

theorem any_beq_key_false {α : Type} {m : List (String × α)} {k : String}
    (h : k ∉ m.map Prod.fst) : (m.any (fun kv => kv.1 == k)) = false := by
  rw [List.any_eq_false]
  intro kv hkv hbeq
  exact h (List.mem_map.mpr ⟨kv, hkv, beq_iff_eq.mp hbeq⟩)

theorem pmInsert_fresh {m : PMap} {k v : String}
    (h : k ∉ m.map Prod.fst) : pmInsert m k v = m ++ [(k, v)] := by
  unfold pmInsert
  rw [any_beq_key_false h]
  rfl

theorem foldl_pmInsert_eq :
    ∀ (rows : List Row) (m : PMap),
      (∀ r ∈ rows, r.name ∉ m.map Prod.fst) →
      (rows.map Row.name).Nodup →
      rows.foldl (fun m r =>
          if pyStrip r.parent ≠ "" then pmInsert m r.name (pyStrip r.parent)
          else m) m =
        m ++ rows.filterMap pmEntry := by
  intro rows
  induction rows with
  | nil => intro m _ _; simp
  | cons r rows ih =>
    intro m hkeys hnd
    have hnd' : (∀ x ∈ rows, ¬x.name = r.name) ∧
        (rows.map Row.name).Nodup := by simpa using hnd
    rw [List.foldl_cons]
    by_cases hp : pyStrip r.parent = ""
    · rw [if_neg (by simp [hp])]
      rw [ih m (fun r' hr' => hkeys r' (List.mem_cons_of_mem r hr')) hnd'.2]
      have he : pmEntry r = none := by simp [pmEntry, hp]
      rw [List.filterMap_cons, he]
    · rw [if_pos (by simp [hp])]
      rw [pmInsert_fresh (hkeys r (List.mem_cons_self r rows))]
      rw [ih (m ++ [(r.name, pyStrip r.parent)]) ?_ hnd'.2]
      · have he : pmEntry r = some (r.name, pyStrip r.parent) := by
          simp [pmEntry, hp]
        rw [List.filterMap_cons, he, List.append_assoc]
        rfl
      · intro r' hr'
        rw [List.map_append, List.mem_append]
        rintro (hm | hm)
        · exact hkeys r' (List.mem_cons_of_mem r hr') hm
        · have he : r'.name = r.name := by simpa using hm
          exact hnd'.1 r' hr' he

theorem build_parents_map_eq (rows : List Row)
    (hnd : (rows.map Row.name).Nodup) :
    build_parents_map rows = rows.filterMap pmEntry := by
  have h := foldl_pmInsert_eq rows [] (by simp) hnd
  simpa [build_parents_map] using h

theorem lookup_filterMap_pmEntry :
    ∀ rows : List Row, (rows.map Row.name).Nodup →
      ∀ r ∈ rows, (rows.filterMap pmEntry).lookup r.name =
        if pyStrip r.parent = "" then none else some (pyStrip r.parent) := by
  intro rows
  induction rows with
  | nil => intro _ r hr; cases hr
  | cons a rows ih =>
    intro hnd r hr
    have hnd' : (∀ x ∈ rows, ¬x.name = a.name) ∧
        (rows.map Row.name).Nodup := by simpa using hnd
    rcases List.mem_cons.mp hr with rfl | hr'
    · by_cases hp : pyStrip r.parent = ""
      · have he : pmEntry r = none := by simp [pmEntry, hp]
        rw [List.filterMap_cons, he, if_pos hp]
        rw [List.lookup_eq_none_iff]
        intro p hp'
        have hkey := keys_filterMap_pmEntry rows p hp'
        rcases List.mem_map.mp hkey with ⟨x, hx, hxe⟩
        exact bne_iff_ne.mpr (fun e => hnd'.1 x hx (hxe.trans e.symm))
      · have he : pmEntry r = some (r.name, pyStrip r.parent) := by
          simp [pmEntry, hp]
        rw [List.filterMap_cons, he, if_neg hp]
        exact List.lookup_cons_self
    · have hne : r.name ≠ a.name := fun e => hnd'.1 r hr' e
      by_cases hp : pyStrip a.parent = ""
      · have he : pmEntry a = none := by simp [pmEntry, hp]
        rw [List.filterMap_cons, he]
        exact ih hnd'.2 r hr'
      · have he : pmEntry a = some (a.name, pyStrip a.parent) := by
          simp [pmEntry, hp]
        rw [List.filterMap_cons, he, List.lookup_cons]
        have hb : (r.name == a.name) = false := by
          simpa using hne
        rw [hb]
        exact ih hnd'.2 r hr'

theorem build_parents_map_lookup (rows : List Row)
    (hnd : (rows.map Row.name).Nodup) :
    ∀ r ∈ rows, (build_parents_map rows).lookup r.name =
      if pyStrip r.parent = "" then none else some (pyStrip r.parent) := by
  rw [build_parents_map_eq rows hnd]
  exact lookup_filterMap_pmEntry rows hnd

/-- Branch lemma: the walk stops on a name with no parents-map entry. -/
theorem ancestor_walk_eq_none (pm : PMap) (all : List String) (c : String)
    (vis : List String) (h : pm.lookup c = none) :
    ancestor_walk pm all c vis = [] := by
  rw [ancestor_walk]
  split
  · rfl
  · rename_i parent hsome
    rw [h] at hsome
    exact Option.noConfusion hsome

/-- Branch lemma: the walk stops on a visited name. -/
theorem ancestor_walk_eq_visited (pm : PMap) (all : List String) (c : String)
    (vis : List String) (parent : String) (hlk : pm.lookup c = some parent)
    (hv : vis.contains c = true) :
    ancestor_walk pm all c vis = [] := by
  rw [ancestor_walk]
  split
  · rfl
  · rw [dif_pos hv]

/-- Branch lemma: one step of the walk. -/
theorem ancestor_walk_eq_step (pm : PMap) (all : List String) (c : String)
    (vis : List String) (parent : String) (hlk : pm.lookup c = some parent)
    (hv : ¬vis.contains c = true) :
    ancestor_walk pm all c vis =
      (if all.contains parent then [parent] else []) ++
        ancestor_walk pm all parent (c :: vis) := by
  rw [ancestor_walk]
  split
  · rename_i hnone
    rw [hlk] at hnone
    exact Option.noConfusion hnone
  · rename_i parent' hsome
    rw [hlk] at hsome
    cases hsome
    rw [dif_neg hv]

/-- Every name the walk outputs whose parents-map parent exists among the
valid names either has that parent in the walk's output as well, or was
already visited when the walk started, or is the walk's start. -/
theorem ancestor_walk_closure (pm : PMap) (all : List String) :
    ∀ (start : String) (vis : List String),
      ∀ x ∈ ancestor_walk pm all start vis,
        ∀ p, pm.lookup x = some p → all.contains p = true →
          p ∈ ancestor_walk pm all start vis ∨ x ∈ vis ∨ x = start := by
  intro start vis
  refine ancestor_walk.induct pm all
    (fun c v => ∀ x ∈ ancestor_walk pm all c v,
      ∀ p, pm.lookup x = some p → all.contains p = true →
        p ∈ ancestor_walk pm all c v ∨ x ∈ v ∨ x = c)
    ?_ ?_ ?_ start vis
  · intro c v hlk x hx
    rw [ancestor_walk_eq_none pm all c v hlk] at hx
    cases hx
  · intro c v parent hlk hv x hx
    rw [ancestor_walk_eq_visited pm all c v parent hlk hv] at hx
    cases hx
  · intro c v parent hlk hv ih x hx p hxp hcp
    rw [ancestor_walk_eq_step pm all c v parent hlk hv] at hx ⊢
    have hparent_case : x = parent →
        p ∈ (if all.contains parent then [parent] else []) ++
          ancestor_walk pm all parent (c :: v) ∨ x ∈ v ∨ x = c := by
      intro he
      subst he
      by_cases hvc : (c :: v).contains x = true
      · rcases List.mem_cons.mp (contains_true_iff.mp hvc) with h1 | h2
        · exact Or.inr (Or.inr h1)
        · exact Or.inr (Or.inl h2)
      · refine Or.inl (List.mem_append.mpr (Or.inr ?_))
        rw [ancestor_walk_eq_step pm all x (c :: v) p hxp hvc]
        refine List.mem_append.mpr (Or.inl ?_)
        rw [if_pos hcp]
        exact List.mem_singleton.mpr rfl
    rcases List.mem_append.mp hx with hx1 | hx2
    · have hxpar : x = parent := by
        by_cases hc : all.contains parent = true
        · rw [if_pos hc] at hx1
          exact List.mem_singleton.mp hx1
        · rw [if_neg hc] at hx1
          cases hx1
      exact hparent_case hxpar
    · rcases ih x hx2 p hxp hcp with h1 | h2 | h3
      · exact Or.inl (List.mem_append.mpr (Or.inr h1))
      · rcases List.mem_cons.mp h2 with he | hv'
        · exact Or.inr (Or.inr he)
        · exact Or.inr (Or.inl hv')
      · exact hparent_case h3

theorem mem_foldl_append {α β : Type} (w : α → List β) :
    ∀ (l : List α) (acc : List β) (x : β),
      x ∈ l.foldl (fun a n => a ++ w n) acc ↔ x ∈ acc ∨ ∃ n ∈ l, x ∈ w n := by
  intro l
  induction l with
  | nil => intro acc x; simp
  | cons a l ih =>
    intro acc x
    rw [List.foldl_cons, ih, List.mem_append]
    constructor
    · rintro ((h | h) | ⟨n, hn, hx⟩)
      · exact Or.inl h
      · exact Or.inr ⟨a, List.mem_cons_self a l, h⟩
      · exact Or.inr ⟨n, List.mem_cons_of_mem a hn, hx⟩
    · rintro (h | ⟨n, hn, hx⟩)
      · exact Or.inl (Or.inl h)
      · rcases List.mem_cons.mp hn with rfl | hn'
        · exact Or.inl (Or.inr hx)
        · exact Or.inr ⟨n, hn', hx⟩

/-- Membership in `filter_with_ancestors` when the filter mapping is
non-empty: a row of the collection whose name either matches directly or
is collected by an ancestor walk started at a matching name. -/
theorem mem_filter_with_ancestors (cols : List String) (rows : List Row)
    (filters : List (String × List String)) (hf : ¬filters.isEmpty = true)
    (r : Row) :
    r ∈ filter_with_ancestors cols rows filters ↔
      r ∈ rows ∧
        (r.name ∈ (filter_dataframe cols rows filters).map Row.name ∨
          ∃ n ∈ (filter_dataframe cols rows filters).map Row.name,
            r.name ∈ ancestor_walk (build_parents_map rows)
              (rows.map Row.name) n []) := by
  unfold filter_with_ancestors
  rw [if_neg hf, List.mem_filter]
  apply and_congr_right
  intro _
  rw [contains_true_iff, List.mem_append,
    mem_foldl_append (fun n => ancestor_walk (build_parents_map rows)
      (rows.map Row.name) n []) _ [] r.name]
  simp only [List.not_mem_nil, false_or]

/-- C3: for every record collection with unique names and every filter
mapping, `filter_with_ancestors` keeps every record `filter_dataframe`
keeps, and its result is closed under taking parents: when an included
record's stripped parent names a record of the original collection, a
record with that name is included as well. -/
theorem c3_filter_with_ancestors_superset_closed :
    ∀ (cols : List String) (rows : List Row)
      (filters : List (String × List String)),
      (rows.map Row.name).Nodup →
      (∀ r ∈ filter_dataframe cols rows filters,
        r ∈ filter_with_ancestors cols rows filters) ∧
      (∀ r ∈ rows, r ∈ filter_with_ancestors cols rows filters →
        pyStrip r.parent ≠ "" → pyStrip r.parent ∈ rows.map Row.name →
        ∃ r' ∈ filter_with_ancestors cols rows filters,
          r'.name = pyStrip r.parent) := by
  intro cols rows filters hnd
  by_cases hf : filters.isEmpty = true
  · have hfw : filter_with_ancestors cols rows filters = rows := by
      unfold filter_with_ancestors
      rw [if_pos hf]
    constructor
    · intro r hr
      rw [hfw]
      exact (List.mem_filter.mp hr).1
    · intro r _ _ _ hpmem
      rw [hfw]
      rcases List.mem_map.mp hpmem with ⟨r', hr', hname⟩
      exact ⟨r', hr', hname⟩
  · constructor
    · intro r hr
      rw [mem_filter_with_ancestors cols rows filters hf]
      exact ⟨(List.mem_filter.mp hr).1, Or.inl (List.mem_map.mpr ⟨r, hr, rfl⟩)⟩
    · intro r hr hmem hp hpmem
      rw [mem_filter_with_ancestors cols rows filters hf] at hmem
      have hlk : (build_parents_map rows).lookup r.name =
          some (pyStrip r.parent) := by
        rw [build_parents_map_lookup rows hnd r hr, if_neg hp]
      have hcp : (rows.map Row.name).contains (pyStrip r.parent) = true :=
        contains_true_iff.mpr hpmem
      have hwalk_self : ∀ n,
          n ∈ (filter_dataframe cols rows filters).map Row.name →
          n = r.name →
          pyStrip r.parent ∈ ancestor_walk (build_parents_map rows)
            (rows.map Row.name) n [] := by
        intro n hn he
        subst he
        rw [ancestor_walk_eq_step (build_parents_map rows) (rows.map Row.name)
          r.name [] (pyStrip r.parent) hlk (by simp)]
        refine List.mem_append.mpr (Or.inl ?_)
        rw [if_pos hcp]
        exact List.mem_singleton.mpr rfl
      have hanc : ∃ n ∈ (filter_dataframe cols rows filters).map Row.name,
          pyStrip r.parent ∈ ancestor_walk (build_parents_map rows)
            (rows.map Row.name) n [] := by
        rcases hmem.2 with hm | ⟨n, hn, hwn⟩
        · exact ⟨r.name, hm, hwalk_self r.name hm rfl⟩
        · rcases ancestor_walk_closure (build_parents_map rows)
            (rows.map Row.name) n [] r.name hwn (pyStrip r.parent) hlk hcp
            with h1 | h2 | h3
          · exact ⟨n, hn, h1⟩
          · cases h2
          · exact ⟨n, hn, hwalk_self n hn h3.symm⟩
      rcases List.mem_map.mp hpmem with ⟨r', hr', hname⟩
      refine ⟨r', ?_, hname⟩
      rw [mem_filter_with_ancestors cols rows filters hf]
      refine ⟨hr', Or.inr ?_⟩
      rw [hname]
      exact hanc

/-- Rows for the C3 witness: `child` matches the filter, `root` does not
but is its parent. -/
def c3Rows : List Row :=
  [{ name := "root", parent := "", attrs := [("status", "x")] },
   { name := "child", parent := "root", attrs := [("status", "y")] }]

/-- Witness for C3 at a concrete input: the directly matching row is in
the ancestor-preserving result. -/
theorem c3_filter_with_ancestors_witness :
    ({ name := "child", parent := "root", attrs := [("status", "y")] } : Row) ∈
      filter_with_ancestors ["name", "parent", "status"] c3Rows
        [("status", ["y"])] :=
  (c3_filter_with_ancestors_superset_closed ["name", "parent", "status"]
      c3Rows [("status", ["y"])] (by decide)).1 _ (by decide)
